import Mathlib

/-!
Shallow embedding of `trunk/pymodbus/utilities.py`: bit packing/unpacking
helpers and the CRC16 / LRC checksum functions, with theorems checking the
natural-language specification against them.

Bytes are modelled as `Nat` (Python character codes obtained via `ord`,
produced via `chr`); byte strings are `List Nat`; bit arrays are `List Bool`.
`unpackBitsFromString`, which in Python raises `IndexError` on a missing
index, is modelled with `Except`: an out-of-range read of byte 0 is the
empty-input condition, an out-of-range read of a later byte is the
input-too-short condition.
-/

namespace PyModbus

/-- The loop of `packBitsToString`: state is the emitted bytes `ret`, the
number `i` of bits accumulated in the current group, and the accumulator
`packed`.  Each bit is added at weight 128; on every iteration that does not
complete a group of 8 the accumulator is shifted right once; a final partial
group (`0 < i < 8`) is shifted right by `7 - i` and emitted. -/
def packLoop : List Bool → List Nat → Nat → Nat → List Nat
  | [], ret, i, packed => if 0 < i ∧ i < 8 then ret ++ [packed >>> (7 - i)] else ret
  | bit :: rest, ret, i, packed =>
      let packed1 := if bit then packed + 128 else packed
      if i + 1 = 8 then
        packLoop rest (ret ++ [packed1]) 0 0
      else
        packLoop rest ret (i + 1) (packed1 >>> 1)

/-- `packBitsToString(bits)` from `utilities.py`: packs a bit array into a
byte string. -/
def packBitsToString (bits : List Bool) : List Nat :=
  packLoop bits [] 0 0

/-- The inner loop of `unpackBitsFromString`: extract `k` bits from a byte
value, least significant first (`value & 1 == 1`, then `value >>= 1`). -/
def byteToBits : Nat → Nat → List Bool
  | _, 0 => []
  | value, k + 1 => ((value &&& 1) == 1) :: byteToBits (value >>> 1) k

/-- The 8 bits of one data byte, as appended by `unpackBitsFromString`. -/
def bitsOfByte (value : Nat) : List Bool :=
  byteToBits value 8

/-- Failure conditions of `unpackBitsFromString` (in Python both are an
`IndexError`; they are distinguished by which index read fails). -/
inductive UnpackError where
  | emptyInput
  | inputTooShort
deriving DecidableEq, Repr

/-- The outer loop of `unpackBitsFromString`: read `remaining` more bytes
starting at index `idx`, appending the 8 decoded bits of each; a read past
the end of the string is the input-too-short condition. -/
def unpackGo (string : List Nat) : Nat → Nat → List Bool → Except UnpackError (List Bool)
  | 0, _, bits => .ok bits
  | remaining + 1, idx, bits =>
      match string[idx]? with
      | none => .error .inputTooShort
      | some value => unpackGo string remaining (idx + 1) (bits ++ bitsOfByte value)

/-- `unpackBitsFromString(string)` from `utilities.py`: byte 0 is the count
of data bytes that follow; the result pairs the decoded bit list with that
count.  Reading byte 0 of an empty string is the empty-input condition. -/
def unpackBitsFromString (string : List Nat) : Except UnpackError (List Bool × Nat) :=
  match string[0]? with
  | none => .error .emptyInput
  | some byte_count =>
      (unpackGo string byte_count 1 []).map (fun bits => (bits, byte_count))

/-- One entry computation of `__generate_crc16_table`: 8 shift steps in
which the decision bit is the low bit of `byte ^ crc` and `byte` itself is
shifted right each step (the pymodbus variant of the table generator). -/
def crcEntryGo : Nat → Nat → Nat → Nat
  | _, crc, 0 => crc
  | byte, crc, k + 1 =>
      let crc1 := if (byte ^^^ crc) &&& 1 = 1 then (crc >>> 1) ^^^ 0xa001 else crc >>> 1
      crcEntryGo (byte >>> 1) crc1 k

/-- `__generate_crc16_table()` from `utilities.py`. -/
def generateCrc16Table : List Nat :=
  (List.range 256).map (fun byte => crcEntryGo byte 0 8)

/-- The module-level `__crc16_table`. -/
def crc16_table : List Nat := generateCrc16Table

/-- `computeCRC(data)` from `utilities.py`: table-driven CRC16 with seed
`0xffff`; each step indexes the table at `(crc ^ byte) & 0xff` and sets
`crc = ((crc >> 8) & 0xff) ^ table[idx]`. -/
def computeCRC (data : List Nat) : Nat :=
  data.foldl
    (fun crc a => ((crc >>> 8) &&& 0xff) ^^^ crc16_table.getD ((crc ^^^ a) &&& 0xff) 0)
    0xffff

/-- `checkCRC(data, check)` from `utilities.py`. -/
def checkCRC (data : List Nat) (check : Nat) : Bool :=
  computeCRC data == check

/-- `computeLRC(data)` from `utilities.py`: sum the bytes, mask to 8 bits,
then `(lrc ^ 0xff) + 1` — note the source applies no final 8-bit mask. -/
def computeLRC (data : List Nat) : Nat :=
  let lrc := data.sum &&& 0xff
  (lrc ^^^ 0xff) + 1

/-- `checkLRC(data, check)` from `utilities.py`. -/
def checkLRC (data : List Nat) (check : Nat) : Bool :=
  computeLRC data == check

/-- One shift step of the textbook bit-by-bit reflected CRC: if the low bit
is set, shift right and xor the reflected polynomial `0xa001`, else just
shift right.  (Reference definition, written from the spec's description.) -/
def crcBitStep (c : Nat) : Nat :=
  if c &&& 1 = 1 then (c >>> 1) ^^^ 0xa001 else c >>> 1

/-- One byte of the naive bit-by-bit reflected CRC-16: xor the byte into the
running value, then do 8 shift steps.  (Reference definition.) -/
def crcNaiveByte (crc a : Nat) : Nat :=
  crcBitStep^[8] (crc ^^^ a)

/-- The naive bit-by-bit reflected CRC-16 with polynomial `0xa001` and
initial value `0xffff`.  (Reference definition, written from the spec.) -/
def computeCRCNaive (data : List Nat) : Nat :=
  data.foldl crcNaiveByte 0xffff

/-- The value of a bit group as a byte, first bit at the least-significant
position. -/
def byteOfBits (l : List Bool) : Nat :=
  l.foldr (fun b acc => b.toNat + 2 * acc) 0

/-- Split a bit list into groups of 8 (the last group may be shorter). -/
def toChunks8 : List Bool → List (List Bool)
  | [] => []
  | a :: l => ((a :: l).take 8) :: toChunks8 ((a :: l).drop 8)
  termination_by l => l.length
  decreasing_by simp [List.length_drop]; omega

/-! ### Generic bitwise helper lemmas -/

theorem xor_shiftRight (x y n : Nat) : (x ^^^ y) >>> n = x >>> n ^^^ y >>> n := by
  apply Nat.eq_of_testBit_eq
  intro i
  simp [Nat.testBit_shiftRight, Nat.testBit_xor]

theorem and_255_eq_mod (x : Nat) : x &&& 255 = x % 256 := by
  have h : (255 : Nat) = 2 ^ 8 - 1 := by norm_num
  have h2 : (256 : Nat) = 2 ^ 8 := by norm_num
  rw [h, h2, Nat.and_pow_two_sub_one_eq_mod]

theorem testBit_255 (i : Nat) : Nat.testBit 255 i = decide (i < 8) := by
  have h255 : (255 : Nat) = 2 ^ 8 - 1 := by norm_num
  rw [h255]
  exact Nat.testBit_two_pow_sub_one 8 i

theorem decompose_lo_hi (x : Nat) : (x &&& 255) ^^^ ((x >>> 8) <<< 8) = x := by
  apply Nat.eq_of_testBit_eq
  intro i
  by_cases h : i < 8
  · have h8 : ¬ (8 ≤ i) := by omega
    simp [Nat.testBit_shiftLeft, testBit_255, h, h8]
  · have h8 : 8 ≤ i := by omega
    have hi : 8 + (i - 8) = i := by omega
    simp [Nat.testBit_shiftLeft, testBit_255, h, h8, hi]

/-! ### The CRC bit step and its algebra -/

theorem xor_mix (a b u v : Nat) : (a ^^^ b) ^^^ (u ^^^ v) = (a ^^^ u) ^^^ (b ^^^ v) := by
  apply Nat.eq_of_testBit_eq
  intro i
  simp [Nat.testBit_xor, Bool.xor_assoc, Bool.xor_comm, Bool.xor_left_comm]

theorem mul_xor_bit (u v : Nat) (hu : u = 0 ∨ u = 1) (hv : v = 0 ∨ v = 1) :
    (u ^^^ v) * 40961 = u * 40961 ^^^ v * 40961 := by
  rcases hu with h | h <;> rcases hv with h2 | h2 <;> subst h <;> subst h2 <;> decide

theorem and_one_cases (x : Nat) : x &&& 1 = 0 ∨ x &&& 1 = 1 := by
  rw [Nat.and_one_is_mod]
  exact Nat.mod_two_eq_zero_or_one x

theorem crcBitStep_eq (c : Nat) : crcBitStep c = (c >>> 1) ^^^ (c &&& 1) * 40961 := by
  unfold crcBitStep
  rcases and_one_cases c with h | h <;> simp [h]

theorem crcBitStep_xor (x y : Nat) : crcBitStep (x ^^^ y) = crcBitStep x ^^^ crcBitStep y := by
  rw [crcBitStep_eq, crcBitStep_eq, crcBitStep_eq, xor_shiftRight, Nat.and_xor_distrib_right,
    mul_xor_bit _ _ (and_one_cases x) (and_one_cases y), xor_mix]

theorem crcBitStep_iterate_xor (k x y : Nat) :
    crcBitStep^[k] (x ^^^ y) = crcBitStep^[k] x ^^^ crcBitStep^[k] y := by
  induction k generalizing x y with
  | zero => rfl
  | succ k ih =>
    rw [Function.iterate_succ_apply, Function.iterate_succ_apply,
      Function.iterate_succ_apply, crcBitStep_xor, ih]

theorem crcBitStep_shiftLeft (h m : Nat) (hm : 1 ≤ m) :
    crcBitStep (h <<< m) = h <<< (m - 1) := by
  have hm1 : m - 1 + 1 = m := by omega
  have he : h <<< m = 2 * (h <<< (m - 1)) := by
    rw [Nat.shiftLeft_eq, Nat.shiftLeft_eq]
    calc h * 2 ^ m = h * 2 ^ (m - 1 + 1) := by rw [hm1]
    _ = 2 * (h * 2 ^ (m - 1)) := by rw [pow_succ]; ring
  rw [he]
  unfold crcBitStep
  simp only [Nat.and_one_is_mod, Nat.mul_mod_right, Nat.shiftRight_one]
  norm_num

theorem crcBitStep_iterate_high (h : Nat) : crcBitStep^[8] (h <<< 8) = h := by
  have key : ∀ k, k ≤ 8 → crcBitStep^[k] (h <<< 8) = h <<< (8 - k) := by
    intro k
    induction k with
    | zero => intro _; rfl
    | succ k ih =>
      intro hk
      have h1 : 8 - k - 1 = 8 - (k + 1) := by omega
      rw [Function.iterate_succ_apply', ih (by omega),
        crcBitStep_shiftLeft _ _ (by omega), h1]
  have h8 := key 8 le_rfl
  simpa using h8

theorem crcBitStep_iterate_decompose (x : Nat) :
    crcBitStep^[8] x = crcBitStep^[8] (x &&& 255) ^^^ (x >>> 8) := by
  conv_lhs => rw [← decompose_lo_hi x]
  rw [crcBitStep_iterate_xor, crcBitStep_iterate_high]

/-! ### The generated table agrees with the naive bit-by-bit computation -/

set_option maxRecDepth 100000 in
theorem crc16_table_eq : crc16_table = (List.range 256).map (fun b => crcBitStep^[8] b) := by
  decide

theorem crc16_table_getD (i : Nat) (hi : i < 256) :
    crc16_table.getD i 0 = crcBitStep^[8] i := by
  rw [crc16_table_eq, List.getD_eq_getElem?_getD, List.getElem?_map, List.getElem?_range hi]
  rfl

set_option maxRecDepth 100000 in
theorem crc16_table_getD_lt (i : Nat) : crc16_table.getD i 0 < 65536 := by
  have hall : ∀ t ∈ crc16_table, t < 65536 := by decide
  rcases Nat.lt_or_ge i crc16_table.length with h | h
  · rw [List.getD_eq_getElem?_getD, List.getElem?_eq_getElem h]
    exact hall _ (List.getElem_mem h)
  · rw [List.getD_eq_getElem?_getD, List.getElem?_eq_none h]
    norm_num

theorem computeCRC_step_lt (crc a : Nat) :
    ((crc >>> 8) &&& 255) ^^^ crc16_table.getD ((crc ^^^ a) &&& 255) 0 < 65536 := by
  have h1 : (crc >>> 8) &&& 255 < 65536 :=
    Nat.lt_of_le_of_lt Nat.and_le_right (by norm_num)
  have h2 := crc16_table_getD_lt ((crc ^^^ a) &&& 255)
  have e : (65536 : Nat) = 2 ^ 16 := by norm_num
  rw [e] at h1 h2 ⊢
  exact Nat.xor_lt_two_pow h1 h2

theorem computeCRC_step_eq (crc a : Nat) (hc : crc < 65536) (ha : a < 256) :
    ((crc >>> 8) &&& 255) ^^^ crc16_table.getD ((crc ^^^ a) &&& 255) 0
      = crcNaiveByte crc a := by
  have hlt : (crc ^^^ a) &&& 255 < 256 :=
    Nat.lt_of_le_of_lt Nat.and_le_right (by norm_num)
  rw [crc16_table_getD _ hlt]
  unfold crcNaiveByte
  rw [crcBitStep_iterate_decompose (crc ^^^ a)]
  have h1 : (crc ^^^ a) >>> 8 = crc >>> 8 := by
    rw [xor_shiftRight]
    have ha8 : a >>> 8 = 0 := by
      rw [Nat.shiftRight_eq_div_pow]
      exact Nat.div_eq_of_lt (by norm_num at ha ⊢; omega)
    rw [ha8, Nat.xor_zero]
  have h2 : (crc >>> 8) &&& 255 = crc >>> 8 := by
    rw [and_255_eq_mod]
    apply Nat.mod_eq_of_lt
    rw [Nat.shiftRight_eq_div_pow]
    omega
  rw [h1, h2, Nat.xor_comm]

theorem computeCRC_foldl_eq_naive (data : List Nat) :
    ∀ crc, crc < 65536 → (∀ a ∈ data, a < 256) →
      data.foldl
        (fun crc a => ((crc >>> 8) &&& 0xff) ^^^ crc16_table.getD ((crc ^^^ a) &&& 0xff) 0) crc
        = data.foldl crcNaiveByte crc := by
  induction data with
  | nil => intro crc _ _; rfl
  | cons a t ih =>
    intro crc hc hd
    have ha : a < 256 := hd a (List.mem_cons_self a t)
    have hstep := computeCRC_step_eq crc a hc ha
    simp only [List.foldl_cons]
    rw [hstep]
    exact ih (crcNaiveByte crc a) (hstep ▸ computeCRC_step_lt crc a)
      (fun x hx => hd x (List.mem_cons_of_mem a hx))

theorem computeCRC_eq_naive (data : List Nat) (h : ∀ a ∈ data, a < 256) :
    computeCRC data = computeCRCNaive data :=
  computeCRC_foldl_eq_naive data 0xffff (by norm_num) h

theorem computeCRC_foldl_lt (data : List Nat) :
    ∀ crc, crc < 65536 →
      data.foldl
        (fun crc a => ((crc >>> 8) &&& 0xff) ^^^ crc16_table.getD ((crc ^^^ a) &&& 0xff) 0) crc
        < 65536 := by
  induction data with
  | nil => intro crc h; simpa using h
  | cons a t ih =>
    intro crc _
    simp only [List.foldl_cons]
    exact ih _ (computeCRC_step_lt crc a)

theorem computeCRC_lt (data : List Nat) : computeCRC data < 65536 :=
  computeCRC_foldl_lt data 0xffff (by norm_num)

/-! ### Byte values of bit groups -/

@[simp] theorem byteOfBits_nil : byteOfBits [] = 0 := rfl

@[simp] theorem byteOfBits_cons (b : Bool) (t : List Bool) :
    byteOfBits (b :: t) = b.toNat + 2 * byteOfBits t := rfl

theorem byteOfBits_append (g h : List Bool) :
    byteOfBits (g ++ h) = byteOfBits g + 2 ^ g.length * byteOfBits h := by
  induction g with
  | nil => simp
  | cons b t ih =>
    simp only [List.cons_append, byteOfBits_cons, ih, List.length_cons]
    rw [pow_succ]
    ring

theorem byteOfBits_lt (l : List Bool) : byteOfBits l < 2 ^ l.length := by
  induction l with
  | nil => norm_num
  | cons b t ih =>
    have hb : b.toNat ≤ 1 := Bool.toNat_le b
    simp only [byteOfBits_cons, List.length_cons, pow_succ]
    omega

theorem testBit_byteOfBits (l : List Bool) : ∀ j, (byteOfBits l).testBit j = l.getD j false := by
  induction l with
  | nil => intro j; simp
  | cons b t ih =>
    intro j
    have hb : b.toNat ≤ 1 := Bool.toNat_le b
    cases j with
    | zero =>
      have hm : (b.toNat + 2 * byteOfBits t) % 2 = b.toNat := by omega
      rw [byteOfBits_cons, Nat.testBit_zero, hm, List.getD_cons_zero]
      cases b <;> simp
    | succ j =>
      have hd : (b.toNat + 2 * byteOfBits t) / 2 = byteOfBits t := by omega
      rw [byteOfBits_cons, Nat.testBit_succ, hd, List.getD_cons_succ]
      exact ih j

/-! ### Chunking a bit list into groups of 8 -/

theorem toChunks8_flatten (l : List Bool) : (toChunks8 l).flatten = l := by
  match l with
  | [] => simp [toChunks8]
  | a :: t =>
    have ih := toChunks8_flatten ((a :: t).drop 8)
    simp only [toChunks8, List.flatten_cons, ih, List.take_append_drop]
  termination_by l.length
  decreasing_by simp; omega

theorem toChunks8_length (l : List Bool) : (toChunks8 l).length = (l.length + 7) / 8 := by
  match l with
  | [] => simp [toChunks8]
  | a :: t =>
    have ih := toChunks8_length ((a :: t).drop 8)
    simp only [toChunks8, List.length_cons, ih, List.length_drop]
    omega
  termination_by l.length
  decreasing_by simp; omega

theorem toChunks8_getElem? (l : List Bool) : ∀ k, (toChunks8 l)[k]? =
    if 8 * k < l.length then some ((l.drop (8 * k)).take 8) else none := by
  match l with
  | [] => intro k; simp [toChunks8]
  | a :: t =>
    intro k
    cases k with
    | zero => simp [toChunks8]
    | succ k =>
      have ih := toChunks8_getElem? ((a :: t).drop 8) k
      simp only [toChunks8, List.getElem?_cons_succ]
      rw [ih]
      have h1 : ((a :: t).drop 8).drop (8 * k) = (a :: t).drop (8 * (k + 1)) := by
        rw [List.drop_drop]
        congr 1
        ring
      rcases Nat.lt_or_ge (8 * (k + 1)) (a :: t).length with h | h
      · rw [if_pos (by simp only [List.length_drop, List.length_cons] at h ⊢; omega),
          if_pos h, h1]
      · rw [if_neg (by simp only [List.length_drop, List.length_cons] at h ⊢; omega),
          if_neg (by omega)]
  termination_by l.length
  decreasing_by simp; omega

theorem toChunks8_mem_length (l : List Bool) (hd : l.length % 8 = 0) :
    ∀ c ∈ toChunks8 l, c.length = 8 := by
  match l with
  | [] => intro c hc; simp [toChunks8] at hc
  | a :: t =>
    intro c hc
    have hlen : 8 ≤ (a :: t).length := by
      simp only [List.length_cons] at hd ⊢
      omega
    simp only [toChunks8, List.mem_cons] at hc
    rcases hc with hc | hc
    · subst hc
      simp only [List.length_take]
      omega
    · have ih := toChunks8_mem_length ((a :: t).drop 8)
        (by simp only [List.length_drop]; omega)
      exact ih c hc
  termination_by l.length
  decreasing_by simp; omega

theorem toChunks8_cons_of_length (c rest : List Bool) (hc : c.length = 8) :
    toChunks8 (c ++ rest) = c :: toChunks8 rest := by
  rcases c with _ | ⟨a, t⟩
  · simp at hc
  · show toChunks8 (a :: (t ++ rest)) = _
    rw [toChunks8]
    have htake : (a :: (t ++ rest)).take 8 = a :: t := by
      have := List.take_left (a :: t) rest
      rw [hc] at this
      simpa using this
    have hdrop : (a :: (t ++ rest)).drop 8 = rest := by
      have := List.drop_left (a :: t) rest
      rw [hc] at this
      simpa using this
    rw [htake, hdrop]

/-! ### Closed form of the packing loop -/

theorem packLoop_eq (bits : List Bool) : ∀ (g : List Bool) (ret : List Nat), g.length < 8 →
    packLoop bits ret g.length (2 ^ (7 - g.length) * byteOfBits g) =
      ret ++ (toChunks8 (g ++ bits)).map byteOfBits := by
  induction bits with
  | nil =>
    intro g ret hg
    rcases g with _ | ⟨b, t⟩
    · simp [packLoop, toChunks8]
    · have hcond : 0 < (b :: t).length ∧ (b :: t).length < 8 := ⟨by simp, hg⟩
      have hshift : (2 ^ (7 - (b :: t).length) * byteOfBits (b :: t)) >>> (7 - (b :: t).length)
          = byteOfBits (b :: t) := by
        rw [Nat.shiftRight_eq_div_pow]
        exact Nat.mul_div_cancel_left _ (Nat.pos_pow_of_pos _ (by norm_num))
      have hchunk : toChunks8 ((b :: t) ++ []) = [b :: t] := by
        rw [List.append_nil, toChunks8]
        rw [List.take_of_length_le (by omega), List.drop_eq_nil_of_le (by omega)]
        simp [toChunks8]
      simp only [packLoop, if_pos hcond, hshift, hchunk, List.map_cons, List.map_nil]
  | cons b rest ih =>
    intro g ret hg
    simp only [packLoop]
    by_cases h8 : g.length + 1 = 8
    · rw [if_pos h8]
      have hl7 : g.length = 7 := by omega
      have hp1 : (if b then 2 ^ (7 - g.length) * byteOfBits g + 128
            else 2 ^ (7 - g.length) * byteOfBits g)
          = byteOfBits (g ++ [b]) := by
        rw [byteOfBits_append, hl7]
        cases b <;> norm_num
      rw [hp1]
      have ihe := ih [] (ret ++ [byteOfBits (g ++ [b])]) (by norm_num)
      simp only [List.length_nil, Nat.sub_zero, byteOfBits_nil, Nat.mul_zero,
        List.nil_append] at ihe
      rw [ihe]
      have hc : toChunks8 (g ++ b :: rest) = (g ++ [b]) :: toChunks8 rest := by
        have happ : g ++ b :: rest = (g ++ [b]) ++ rest := by simp
        rw [happ, toChunks8_cons_of_length _ _ (by simp [hl7])]
      rw [hc]
      simp [List.append_assoc]
    · rw [if_neg h8]
      have hp1 : (if b then 2 ^ (7 - g.length) * byteOfBits g + 128
            else 2 ^ (7 - g.length) * byteOfBits g)
          = 2 * (2 ^ (7 - (g.length + 1)) * byteOfBits (g ++ [b])) := by
        have e1 : 7 - g.length = (7 - (g.length + 1)) + 1 := by omega
        have e2 : 2 ^ (7 - (g.length + 1)) * 2 ^ g.length = 64 := by
          rw [← pow_add]
          have e3 : 7 - (g.length + 1) + g.length = 6 := by omega
          rw [e3]
          norm_num
        have hsingle : byteOfBits [b] = b.toNat := by simp
        rw [byteOfBits_append, hsingle]
        cases b
        · simp only [Bool.false_eq_true, if_false, Bool.toNat_false, Nat.mul_zero,
            Nat.add_zero]
          rw [e1, pow_succ]
          ring
        · simp only [if_true, Bool.toNat_true, Nat.mul_one]
          have e4 : 2 ^ (7 - (g.length + 1)) * (byteOfBits g + 2 ^ g.length)
              = 2 ^ (7 - (g.length + 1)) * byteOfBits g + 64 := by
            rw [Nat.mul_add, e2]
          rw [e4, e1, pow_succ]
          ring
      rw [hp1]
      have hs : (2 * (2 ^ (7 - (g.length + 1)) * byteOfBits (g ++ [b]))) >>> 1
          = 2 ^ (7 - (g.length + 1)) * byteOfBits (g ++ [b]) := by
        rw [Nat.shiftRight_one]
        omega
      rw [hs]
      have ihe := ih (g ++ [b]) ret (by simp; omega)
      have hl : (g ++ [b]).length = g.length + 1 := by simp
      rw [hl] at ihe
      have happ : (g ++ [b]) ++ rest = g ++ b :: rest := by simp
      rw [happ] at ihe
      exact ihe

theorem packBitsToString_eq (bits : List Bool) :
    packBitsToString bits = (toChunks8 bits).map byteOfBits := by
  have h := packLoop_eq bits [] [] (by norm_num)
  simpa [packBitsToString] using h

/-! ### Decoding single bytes back into bits -/

theorem byteToBits_length (k : Nat) : ∀ v, (byteToBits v k).length = k := by
  induction k with
  | zero => intro v; rfl
  | succ k ih => intro v; simp [byteToBits, ih]

@[simp] theorem bitsOfByte_length (v : Nat) : (bitsOfByte v).length = 8 :=
  byteToBits_length 8 v

theorem byteToBits_getD (k : Nat) : ∀ v j, j < k →
    (byteToBits v k).getD j false = v.testBit j := by
  induction k with
  | zero => intro v j hj; omega
  | succ k ih =>
    intro v j hj
    cases j with
    | zero =>
      rw [byteToBits, List.getD_cons_zero, Nat.testBit_zero, Nat.and_one_is_mod]
      rcases Nat.mod_two_eq_zero_or_one v with h | h <;> rw [h] <;> simp
    | succ j =>
      rw [byteToBits, List.getD_cons_succ, ih _ j (by omega)]
      rw [Nat.testBit_succ, Nat.shiftRight_one]

theorem bitsOfByte_getD (v j : Nat) (hj : j < 8) :
    (bitsOfByte v).getD j false = v.testBit j :=
  byteToBits_getD 8 v j hj

theorem byteToBits_byteOfBits (c : List Bool) : byteToBits (byteOfBits c) c.length = c := by
  induction c with
  | nil => rfl
  | cons b t ih =>
    have hb : b.toNat ≤ 1 := Bool.toNat_le b
    rw [List.length_cons, byteOfBits_cons, byteToBits]
    have h1 : ((b.toNat + 2 * byteOfBits t) &&& 1) = b.toNat := by
      rw [Nat.and_one_is_mod]
      omega
    have h2 : (b.toNat + 2 * byteOfBits t) >>> 1 = byteOfBits t := by
      rw [Nat.shiftRight_one]
      omega
    rw [h1, h2, ih]
    cases b <;> rfl

theorem bitsOfByte_byteOfBits (c : List Bool) (hc : c.length = 8) :
    bitsOfByte (byteOfBits c) = c := by
  rw [bitsOfByte, ← hc, byteToBits_byteOfBits]

/-! ### Flattened bit output of unpacking -/

theorem length_flatMap_bitsOfByte (l : List Nat) :
    (l.flatMap bitsOfByte).length = 8 * l.length := by
  induction l with
  | nil => rfl
  | cons v t ih =>
    rw [List.flatMap_cons, List.length_append, ih, bitsOfByte_length, List.length_cons]
    ring

theorem getD_flatMap_bitsOfByte (l : List Nat) : ∀ j, j < 8 * l.length →
    (l.flatMap bitsOfByte).getD j false = Nat.testBit (l.getD (j / 8) 0) (j % 8) := by
  induction l with
  | nil => intro j hj; simp at hj
  | cons v t ih =>
    intro j hj
    rw [List.flatMap_cons]
    rcases Nat.lt_or_ge j 8 with h8 | h8
    · rw [List.getD_append _ _ _ _ (by rw [bitsOfByte_length]; omega)]
      have hd : j / 8 = 0 := by omega
      have hm : j % 8 = j := by omega
      rw [hd, hm, List.getD_cons_zero, bitsOfByte_getD _ _ h8]
    · rw [List.getD_append_right _ _ _ _ (by rw [bitsOfByte_length]; omega)]
      rw [bitsOfByte_length]
      have hlen : j - 8 < 8 * t.length := by
        rw [List.length_cons] at hj
        omega
      rw [ih _ hlen]
      have hd : j / 8 = (j - 8) / 8 + 1 := by omega
      have hm : (j - 8) % 8 = j % 8 := by omega
      rw [hd, hm, List.getD_cons_succ]

theorem flatMap_bitsOfByte_byteOfBits (cs : List (List Bool)) (h : ∀ c ∈ cs, c.length = 8) :
    cs.flatMap (fun c => bitsOfByte (byteOfBits c)) = cs.flatten := by
  induction cs with
  | nil => rfl
  | cons c t ih =>
    rw [List.flatMap_cons, List.flatten_cons,
      bitsOfByte_byteOfBits c (h c (List.mem_cons_self c t)),
      ih (fun x hx => h x (List.mem_cons_of_mem c hx))]

/-! ### The unpacking loop -/

theorem unpackGo_ok (string : List Nat) : ∀ (count idx : Nat) (acc : List Bool),
    idx + count ≤ string.length →
    unpackGo string count idx acc =
      .ok (acc ++ ((string.drop idx).take count).flatMap bitsOfByte) := by
  intro count
  induction count with
  | zero => intro idx acc _; simp [unpackGo]
  | succ count ih =>
    intro idx acc h
    have hidx : idx < string.length := by omega
    simp only [unpackGo, List.getElem?_eq_getElem hidx]
    rw [ih (idx + 1) _ (by omega)]
    rw [List.drop_eq_getElem_cons hidx, List.take_succ_cons, List.flatMap_cons,
      List.append_assoc]

theorem unpackGo_short (string : List Nat) : ∀ (count idx : Nat) (acc : List Bool),
    string.length < idx + count → 1 ≤ count →
    unpackGo string count idx acc = .error .inputTooShort := by
  intro count
  induction count with
  | zero => intro idx acc _ h1; omega
  | succ count ih =>
    intro idx acc h h1
    rcases Nat.lt_or_ge idx string.length with hidx | hidx
    · simp only [unpackGo, List.getElem?_eq_getElem hidx]
      exact ih (idx + 1) _ (by omega) (by omega)
    · simp only [unpackGo, List.getElem?_eq_none hidx]

theorem flatMap_packBitsToString (bits : List Bool) (h : bits.length % 8 = 0) :
    (packBitsToString bits).flatMap bitsOfByte = bits := by
  rw [packBitsToString_eq, List.flatMap_map,
    flatMap_bitsOfByte_byteOfBits _ (toChunks8_mem_length bits h), toChunks8_flatten]

/-! ### The claims -/

/-- C1 counterexample: the claim fails as stated because `packBitsToString`
emits no count byte.  For 8 false bits, pack yields the single byte `[0]`,
and unpack of `[0]` reads a byte count of 0 and returns `([], 0)`, not
`(bits, 1)`. -/
theorem roundtrip_without_prefix_fails :
    unpackBitsFromString (packBitsToString (List.replicate 8 false))
      ≠ Except.ok (List.replicate 8 false, 1) := by
  intro h
  have h0 : unpackBitsFromString (packBitsToString (List.replicate 8 false))
      = Except.ok (([] : List Bool), 0) := rfl
  rw [h0] at h
  simp at h

/-- C1 amended: the round trip holds once the byte count is prepended to
pack's output: for every bit list whose length is a multiple of 8,
`unpackBitsFromString (len/8 :: packBitsToString bits) = (bits, len/8)`. -/
theorem roundtrip_with_count_prefix (bits : List Bool) (h : bits.length % 8 = 0) :
    unpackBitsFromString (bits.length / 8 :: packBitsToString bits)
      = Except.ok (bits, bits.length / 8) := by
  have hplen : (packBitsToString bits).length = bits.length / 8 := by
    rw [packBitsToString_eq, List.length_map, toChunks8_length]
    omega
  have hle : 1 + bits.length / 8
      ≤ (bits.length / 8 :: packBitsToString bits).length := by
    simp [hplen]
    omega
  simp only [unpackBitsFromString, List.getElem?_cons_zero]
  rw [unpackGo_ok _ _ _ _ hle]
  have hdrop : (bits.length / 8 :: packBitsToString bits).drop 1 = packBitsToString bits := by
    simp
  rw [hdrop, List.take_of_length_le (Nat.le_of_eq hplen),
    flatMap_packBitsToString bits h]
  simp [Except.map]

theorem roundtrip_with_count_prefix_witness :
    ([true, false, true, true, false, false, true, false] : List Bool).length % 8 = 0 ∧
    unpackBitsFromString
        (([true, false, true, true, false, false, true, false] : List Bool).length / 8
          :: packBitsToString [true, false, true, true, false, false, true, false])
      = Except.ok (([true, false, true, true, false, false, true, false] : List Bool),
          ([true, false, true, true, false, false, true, false] : List Bool).length / 8) :=
  ⟨rfl, roundtrip_with_count_prefix [true, false, true, true, false, false, true, false] rfl⟩

/-- C2 counterexample: the output of `packBitsToString` carries no count
prefix.  For the 8-bit all-true input, `N = ceil(8/8) = 1`, so the claim
demands `N + 1 = 2` output bytes, but the code emits a single byte. -/
theorem pack_has_no_count_prefix :
    (packBitsToString (List.replicate 8 true)).length
      ≠ (List.replicate 8 true : List Bool).length / 8 + 1 := by
  decide

/-- C2 amended: `packBitsToString` outputs exactly the
`N = ceil(len(bits)/8)` data bytes, with no count byte in front (the count
prefix of the wire format is left to the caller). -/
theorem pack_length_is_data_bytes_only (bits : List Bool) :
    (packBitsToString bits).length = (bits.length + 7) / 8 := by
  rw [packBitsToString_eq, List.length_map, toChunks8_length]

theorem pack_length_is_data_bytes_only_witness :
    (packBitsToString [true]).length = (([true] : List Bool).length + 7) / 8 :=
  pack_length_is_data_bytes_only [true]

/-- C3: the code contradicts the claim at the empty byte sequence: it
returns 256, a value outside the 8-bit range, where the claimed formula
`(256 - sum mod 256) mod 256` gives 0 (the missing final `& 0xff` in the
source). -/
theorem computeLRC_empty_is_256 :
    computeLRC [] = 256 ∧ (256 - ([] : List Nat).sum % 256) % 256 = 0 := by
  exact ⟨rfl, by norm_num⟩

/-- C4: `unpackBitsFromString` fails with the empty-input condition on a
zero-length frame and with the input-too-short condition whenever the
declared count `N` exceeds the data bytes supplied (fewer than `N + 1`
bytes in total); in particular on `[]` and on `[0x03, 0x01]`. -/
theorem unpack_error_conditions (s : List Nat) (n : Nat)
    (h0 : s[0]? = some n) (hshort : s.length < n + 1) :
    unpackBitsFromString s = .error .inputTooShort ∧
    unpackBitsFromString [] = .error .emptyInput ∧
    unpackBitsFromString [0x03, 0x01] = .error .inputTooShort := by
  refine ⟨?_, rfl, rfl⟩
  have hlen : 1 ≤ s.length := by
    rcases List.getElem?_eq_some.mp h0 with ⟨hl, _⟩
    omega
  simp only [unpackBitsFromString, h0]
  rw [unpackGo_short _ _ _ _ (by omega) (by omega)]
  rfl

theorem unpack_error_conditions_witness :
    ([0x03, 0x01] : List Nat)[0]? = some 3 ∧
    ([0x03, 0x01] : List Nat).length < 3 + 1 ∧
    (unpackBitsFromString [0x03, 0x01] = .error .inputTooShort ∧
     unpackBitsFromString [] = .error .emptyInput ∧
     unpackBitsFromString [0x03, 0x01] = .error .inputTooShort) :=
  ⟨rfl, by norm_num, unpack_error_conditions [0x03, 0x01] 3 rfl (by norm_num)⟩

/-- C5: the table-driven `computeCRC` (with the table generated by
`__generate_crc16_table`) equals the naive bit-by-bit reflected CRC-16 with
polynomial 0xA001 and initial value 0xFFFF on every byte sequence; the empty
sequence yields the seed 0xFFFF, and the reference frame
`[0x01, 0x03, 0x00, 0x00, 0x00, 0x0A]` yields the published value 0xCDC5
(wire bytes C5 CD, low byte first). -/
theorem computeCRC_refines_naive (data : List Nat)
    (h : data.all (fun a => a < 256) = true) :
    computeCRC data = computeCRCNaive data ∧
    computeCRC [] = 0xffff ∧
    computeCRC [0x01, 0x03, 0x00, 0x00, 0x00, 0x0a] = 0xcdc5 := by
  refine ⟨?_, rfl, by decide⟩
  exact computeCRC_eq_naive data
    (fun a ha => by simpa using List.all_eq_true.mp h a ha)

theorem computeCRC_refines_naive_witness :
    ([0x01, 0x03, 0x00, 0x00, 0x00, 0x0a] : List Nat).all (fun a => a < 256) = true ∧
    (computeCRC [0x01, 0x03, 0x00, 0x00, 0x00, 0x0a]
        = computeCRCNaive [0x01, 0x03, 0x00, 0x00, 0x00, 0x0a] ∧
     computeCRC [] = 0xffff ∧
     computeCRC [0x01, 0x03, 0x00, 0x00, 0x00, 0x0a] = 0xcdc5) :=
  ⟨by decide, computeCRC_refines_naive [0x01, 0x03, 0x00, 0x00, 0x00, 0x0a] (by decide)⟩

/-- C6: for every index `i < len(bits)`, data byte `i / 8` of pack's output
has bit `i % 8` equal to `bits[i]` (first bit of each group at the least
significant position), and the final partial byte, when `len % 8 = k ≠ 0`,
has its high `8 - k` bits zero (it is `< 2^k`). -/
theorem pack_bit_layout (bits : List Bool) (i : Nat) (hi : i < bits.length) :
    Nat.testBit ((packBitsToString bits).getD (i / 8) 0) (i % 8) = bits.getD i false ∧
    (packBitsToString bits).getD (bits.length / 8) 0
      < 2 ^ (if bits.length % 8 = 0 then 8 else bits.length % 8) := by
  constructor
  · rw [packBitsToString_eq, List.getD_eq_getElem?_getD, List.getElem?_map,
      toChunks8_getElem?, if_pos (by omega)]
    simp only [Option.map_some', Option.getD_some]
    rw [testBit_byteOfBits]
    rw [List.getD_eq_getElem?_getD, List.getElem?_take_of_lt (by omega),
      List.getElem?_drop]
    have he : 8 * (i / 8) + i % 8 = i := by omega
    rw [he, List.getD_eq_getElem?_getD]
  · by_cases hmod : bits.length % 8 = 0
    · rw [if_pos hmod, packBitsToString_eq, List.getD_eq_default]
      · norm_num
      · rw [List.length_map, toChunks8_length]
        omega
    · rw [if_neg hmod, packBitsToString_eq, List.getD_eq_getElem?_getD,
        List.getElem?_map, toChunks8_getElem?, if_pos (by omega)]
      simp only [Option.map_some', Option.getD_some]
      have hlen : ((bits.drop (8 * (bits.length / 8))).take 8).length
          = bits.length % 8 := by
        rw [List.length_take, List.length_drop]
        omega
      have hb := byteOfBits_lt ((bits.drop (8 * (bits.length / 8))).take 8)
      rw [hlen] at hb
      exact hb

theorem pack_bit_layout_witness :
    Nat.testBit ((packBitsToString [true, false, true]).getD (2 / 8) 0) (2 % 8)
      = ([true, false, true] : List Bool).getD 2 false ∧
    (packBitsToString [true, false, true]).getD
        (([true, false, true] : List Bool).length / 8) 0
      < 2 ^ (if ([true, false, true] : List Bool).length % 8 = 0 then 8
          else ([true, false, true] : List Bool).length % 8) :=
  pack_bit_layout [true, false, true] 2 (by norm_num)

/-- C7: on a frame whose byte 0 is `n` and which has at least `n + 1` bytes,
`unpackBitsFromString` succeeds and returns all `8 * n` decoded bits (no
truncation of padding) paired with `n`; bit `j` of the result is bit
`j % 8` of frame byte `1 + j / 8`. -/
theorem unpack_returns_all_bits (s : List Nat) (n j : Nat)
    (h0 : s[0]? = some n) (hlen : n + 1 ≤ s.length) (hj : j < 8 * n) :
    unpackBitsFromString s = .ok (((s.drop 1).take n).flatMap bitsOfByte, n) ∧
    (((s.drop 1).take n).flatMap bitsOfByte).length = 8 * n ∧
    (((s.drop 1).take n).flatMap bitsOfByte).getD j false
      = Nat.testBit (s.getD (1 + j / 8) 0) (j % 8) := by
  have htl : ((s.drop 1).take n).length = n := by
    rw [List.length_take, List.length_drop]
    omega
  refine ⟨?_, ?_, ?_⟩
  · simp only [unpackBitsFromString, h0]
    rw [unpackGo_ok _ _ _ _ (by omega)]
    simp [Except.map]
  · rw [length_flatMap_bitsOfByte, htl]
  · rw [getD_flatMap_bitsOfByte _ _ (by rw [htl]; exact hj)]
    rw [List.getD_eq_getElem?_getD ((s.drop 1).take n),
      List.getElem?_take_of_lt (by omega), List.getElem?_drop,
      List.getD_eq_getElem?_getD s]

theorem unpack_returns_all_bits_witness :
    ([2, 77, 255, 7] : List Nat)[0]? = some 2 ∧
    2 + 1 ≤ ([2, 77, 255, 7] : List Nat).length ∧
    10 < 8 * 2 ∧
    (unpackBitsFromString [2, 77, 255, 7]
        = .ok (((([2, 77, 255, 7] : List Nat).drop 1).take 2).flatMap bitsOfByte, 2) ∧
     (((([2, 77, 255, 7] : List Nat).drop 1).take 2).flatMap bitsOfByte).length = 8 * 2 ∧
     (((([2, 77, 255, 7] : List Nat).drop 1).take 2).flatMap bitsOfByte).getD 10 false
        = Nat.testBit (([2, 77, 255, 7] : List Nat).getD (1 + 10 / 8) 0) (10 % 8)) :=
  ⟨rfl, by norm_num, by norm_num,
    unpack_returns_all_bits [2, 77, 255, 7] 2 10 rfl (by norm_num) (by norm_num)⟩

/-- C8: `checkCRC` and `checkLRC` are plain equality comparisons against the
computed checksum, so each accepts the value computed over the same data. -/
theorem check_functions_accept_computed (data : List Nat) :
    checkCRC data (computeCRC data) = true ∧ checkLRC data (computeLRC data) = true := by
  constructor <;> simp [checkCRC, checkLRC]

theorem check_functions_accept_computed_witness :
    checkCRC [0x01, 0x02] (computeCRC [0x01, 0x02]) = true ∧
    checkLRC [0x01, 0x02] (computeLRC [0x01, 0x02]) = true :=
  check_functions_accept_computed [0x01, 0x02]

set_option maxRecDepth 100000 in
/-- C9: every entry of the generated CRC table is an unsigned 16-bit value,
and `computeCRC` always returns an unsigned 16-bit value. -/
theorem crc_values_are_16_bit (data : List Nat) :
    computeCRC data < 65536 ∧ crc16_table.all (fun t => t < 65536) = true :=
  ⟨computeCRC_lt data, by decide⟩

theorem crc_values_are_16_bit_witness :
    computeCRC [0x12, 0x34] < 65536 ∧ crc16_table.all (fun t => t < 65536) = true :=
  crc_values_are_16_bit [0x12, 0x34]

/-- C10: bytes beyond position `N` (the count declared in byte 0) never
influence the result: two frames agreeing on their first `N + 1` bytes
unpack identically. -/
theorem unpack_ignores_trailing_bytes (s t : List Nat) (n : Nat)
    (h0 : s[0]? = some n) (ht : s.take (n + 1) = t.take (n + 1)) :
    unpackBitsFromString s = unpackBitsFromString t := by
  have hslen : 1 ≤ s.length := by
    rcases List.getElem?_eq_some.mp h0 with ⟨hl, _⟩
    omega
  have ht0 : t[0]? = some n := by
    have h1 : (s.take (n + 1))[0]? = s[0]? := List.getElem?_take_of_lt (by omega)
    have h2 : (t.take (n + 1))[0]? = t[0]? := List.getElem?_take_of_lt (by omega)
    rw [← h2, ← ht, h1, h0]
  have hmineq : min (n + 1) s.length = min (n + 1) t.length := by
    have hle := congrArg List.length ht
    rw [List.length_take, List.length_take] at hle
    exact hle
  simp only [unpackBitsFromString, h0, ht0]
  rcases Nat.lt_or_ge s.length (n + 1) with hshort | hlong
  · have hts : t.length < n + 1 := by omega
    rw [unpackGo_short _ _ _ _ (by omega) (by omega),
      unpackGo_short _ _ _ _ (by omega) (by omega)]
  · have htl : n + 1 ≤ t.length := by omega
    rw [unpackGo_ok _ _ _ _ (by omega), unpackGo_ok _ _ _ _ (by omega)]
    have h1 : (s.take (n + 1)).drop 1 = (s.drop 1).take n := by
      rw [List.drop_take]
      norm_num
    have h2 : (t.take (n + 1)).drop 1 = (t.drop 1).take n := by
      rw [List.drop_take]
      norm_num
    have hdt : (s.drop 1).take n = (t.drop 1).take n := by
      rw [← h1, ← h2, ht]
    rw [hdt]

theorem unpack_ignores_trailing_bytes_witness :
    ([1, 77, 99] : List Nat)[0]? = some 1 ∧
    ([1, 77, 99] : List Nat).take (1 + 1) = ([1, 77] : List Nat).take (1 + 1) ∧
    unpackBitsFromString [1, 77, 99] = unpackBitsFromString [1, 77] :=
  ⟨rfl, rfl, unpack_ignores_trailing_bytes [1, 77, 99] [1, 77] 1 rfl rfl⟩

end PyModbus
